import Mathlib

/-!
Verification of the CC-Packer merge/restore core (`src/merger.py`) against its
natural-language specification.  The Python code is shallowly embedded below:
pure computations become Lean functions over `List`/`Nat`/`String`, file
contents become lists of byte values (`List Nat`), the filesystem state touched
by restore becomes an explicit record, and exception-raising code is modelled
with `Except`.  Machine integers read from archive headers are unbounded in the
Python source (`struct.unpack` produces nonnegative ints), so `Nat` is the
faithful carrier.
-/

namespace CCPacker

/-! ## TextureSplitter (merger.py, merge_cc_content step 8, lines 1086-1100)

The Python loop:
```
MAX_SIZE = int(7.0 * 1024 * 1024 * 1024)
groups = []; current_group = []; current_size = 0
for f_path, f_size in texture_files:
    if current_size + f_size > MAX_SIZE and current_group:
        groups.append(current_group); current_group = []; current_size = 0
    current_group.append(f_path); current_size += f_size
if current_group: groups.append(current_group)
```
We keep the (file, size) pairs in the groups (the Python keeps only the path
and tracks the running size separately; retaining the pair preserves both).
The Python truth test `current_group` is list non-emptiness, written here as
`cur.isEmpty = false`. -/

/-- The constant `int(7.0 * 1024 * 1024 * 1024)` from the source, exact in floating point. -/
def MAX_SIZE : Nat := 7516192768

/-- The splitter loop: remaining input, accumulated closed groups, current
group, current cumulative size. -/
def splitLoop {α : Type} (maxSize : Nat) :
    List (α × Nat) → List (List (α × Nat)) → List (α × Nat) → Nat →
    List (List (α × Nat))
  | [], groups, cur, _ =>
      if cur.isEmpty = true then groups else groups ++ [cur]
  | (f, s) :: rest, groups, cur, curSize =>
      if curSize + s > maxSize ∧ cur.isEmpty = false then
        splitLoop maxSize rest (groups ++ [cur]) [(f, s)] s
      else
        splitLoop maxSize rest groups (cur ++ [(f, s)]) (curSize + s)

/-- The texture splitter of `merge_cc_content`. -/
def splitTextures {α : Type} (files : List (α × Nat)) (maxSize : Nat) :
    List (List (α × Nat)) :=
  splitLoop maxSize files [] [] 0

/-- Cumulative size of a group. -/
def groupSize {α : Type} (g : List (α × Nat)) : Nat :=
  (g.map Prod.snd).sum

/-- A group is within bounds, or is a single file that alone exceeds the bound. -/
def groupSizeOk {α : Type} (maxSize : Nat) (g : List (α × Nat)) : Prop :=
  groupSize g ≤ maxSize ∨ ∃ a, g = [a] ∧ maxSize < a.2

theorem splitLoop_flatten {α : Type} (maxSize : Nat) (files : List (α × Nat)) :
    ∀ (groups : List (List (α × Nat))) (cur : List (α × Nat)) (curSize : Nat),
      (splitLoop maxSize files groups cur curSize).flatten =
        groups.flatten ++ cur ++ files := by
  induction files with
  | nil =>
      intro groups cur curSize
      by_cases h : cur.isEmpty = true
      · have : cur = [] := List.isEmpty_iff.mp h
        simp [splitLoop, h, this]
      · simp [splitLoop, h]
  | cons p rest ih =>
      intro groups cur curSize
      obtain ⟨f, s⟩ := p
      by_cases h : curSize + s > maxSize ∧ cur.isEmpty = false
      · simp only [splitLoop, if_pos h]
        rw [ih]
        simp
      · simp only [splitLoop, if_neg h]
        rw [ih]
        simp

theorem splitLoop_sizeOk {α : Type} (maxSize : Nat) (files : List (α × Nat)) :
    ∀ (groups : List (List (α × Nat))) (cur : List (α × Nat)),
      (∀ g ∈ groups, groupSizeOk maxSize g) →
      (cur = [] ∨ groupSizeOk maxSize cur) →
      ∀ g ∈ splitLoop maxSize files groups cur (groupSize cur),
        groupSizeOk maxSize g := by
  induction files with
  | nil =>
      intro groups cur hgroups hcur g hg
      by_cases h : cur.isEmpty = true
      · simp only [splitLoop, if_pos h] at hg
        exact hgroups g hg
      · simp only [splitLoop, if_neg h] at hg
        rcases List.mem_append.mp hg with hmem | hmem
        · exact hgroups g hmem
        · have : g = cur := by simpa using hmem
          subst this
          rcases hcur with hc | hc
          · rw [hc] at h
            simp at h
          · exact hc
  | cons p rest ih =>
      intro groups cur hgroups hcur g hg
      obtain ⟨f, s⟩ := p
      by_cases h : groupSize cur + s > maxSize ∧ cur.isEmpty = false
      · simp only [splitLoop, if_pos h] at hg
        have hs : splitLoop maxSize rest (groups ++ [cur]) [(f, s)] s =
            splitLoop maxSize rest (groups ++ [cur]) [(f, s)]
              (groupSize [(f, s)]) := by
          simp [groupSize]
        rw [hs] at hg
        refine ih (groups ++ [cur]) [(f, s)] ?_ ?_ g hg
        · intro g' hg'
          rcases List.mem_append.mp hg' with hmem | hmem
          · exact hgroups g' hmem
          · have : g' = cur := by simpa using hmem
            subst this
            rcases hcur with hc | hc
            · rw [hc] at h
              simp at h
            · exact hc
        · right
          by_cases hbig : s ≤ maxSize
          · left; simpa [groupSize] using hbig
          · right
            exact ⟨(f, s), rfl, by omega⟩
      · simp only [splitLoop, if_neg h] at hg
        have hs : splitLoop maxSize rest groups (cur ++ [(f, s)])
              (groupSize cur + s) =
            splitLoop maxSize rest groups (cur ++ [(f, s)])
              (groupSize (cur ++ [(f, s)])) := by
          simp [groupSize]
        rw [hs] at hg
        refine ih groups (cur ++ [(f, s)]) hgroups ?_ g hg
        right
        by_cases hc : cur = []
        · subst hc
          by_cases hbig : s ≤ maxSize
          · left; simpa [groupSize] using hbig
          · right
            exact ⟨(f, s), rfl, by omega⟩
        · have hle : groupSize cur + s ≤ maxSize := by
            rcases not_and_or.mp h with hlt | hne
            · omega
            · exact absurd (by simpa using hc) (by simpa using hne)
          left
          simpa [groupSize] using hle

/-- C3: every output group of the texture splitter is within the maximum
cumulative size, except that a group may exceed it only when it is a single
file whose size alone exceeds the maximum; and the concatenation of the groups
in order is exactly the input list. -/
theorem c3_splitter_sound {α : Type} (files : List (α × Nat)) (maxSize : Nat) :
    (splitTextures files maxSize).flatten = files ∧
    ∀ g ∈ splitTextures files maxSize, groupSizeOk maxSize g := by
  constructor
  · simpa using splitLoop_flatten maxSize files [] [] 0
  · intro g hg
    have h0 : splitLoop maxSize files [] [] 0 =
        splitLoop maxSize files [] [] (groupSize ([] : List (α × Nat))) := by
      simp [groupSize]
    rw [splitTextures, h0] at hg
    exact splitLoop_sizeOk maxSize files [] [] (by simp) (Or.inl rfl) g hg

/-- C3 witness: the splitter at a concrete input, via `c3_splitter_sound`. -/
theorem c3_splitter_sound_witness :
    (splitTextures [((0 : Nat), 5), (1, 6)] 7).flatten =
      [((0 : Nat), 5), (1, 6)] ∧
    groupSizeOk 7 [((0 : Nat), 5)] :=
  ⟨(c3_splitter_sound [((0 : Nat), 5), (1, 6)] 7).1,
   (c3_splitter_sound [((0 : Nat), 5), (1, 6)] 7).2 [((0 : Nat), 5)] (by decide)⟩

/-- C1 counterexample: with three files of 3GB, 4GB and 3GB and the 7GB
maximum, the code groups the first two files together (3GB+4GB = 7GB does not
strictly exceed the maximum), so the output is not the claimed
`[3GB]` then `[4GB, 3GB]`. -/
theorem c1_scenario_counterexample :
    splitTextures [((0 : Nat), 3221225472), (1, 4294967296), (2, 3221225472)]
        MAX_SIZE ≠
      [[((0 : Nat), 3221225472)], [(1, 4294967296), (2, 3221225472)]] := by
  decide

/-- C1 (amended): with three files of 3GB, 4GB and 3GB and the 7GB maximum,
the splitter produces exactly two groups, `[3GB, 4GB]` (sum 7GB, equal to the
maximum, which the strict-overflow test allows) and then `[3GB]`. -/
theorem c1_scenario_amended :
    splitTextures [((0 : Nat), 3221225472), (1, 4294967296), (2, 3221225472)]
        MAX_SIZE =
      [[((0 : Nat), 3221225472), (1, 4294967296)], [(2, 3221225472)]] := by
  decide

/-! ## ContentIntegrityChecker (merger.py, _validate_cc_content_integrity,
lines 728-771)

For each plugin file the code takes `plugin.stem`, checks that
`<stem> - Main.ba2` and `<stem> - Textures.ba2` both exist in the Data
directory, and appends the stem to `valid_cc` or `orphaned_cc` accordingly.
The Data directory is modelled as the list of names of the files it holds; the
scan is a pure function of that list (read-only by construction).  The loop is
transcribed recursively; the output order matches the plugin order as in the
source. -/

/-- Model of `pathlib.PurePath.stem`: the final component without its last suffix.  The
suffix is empty (so the stem is the whole name) when the name has no dot, when
the only dot is leading, or when the dot is the final character. -/
def stem (s : String) : String :=
  let r := s.data.reverse
  let ext := r.takeWhile (fun c => c ≠ Char.ofNat 46)
  match r.dropWhile (fun c => c ≠ Char.ofNat 46) with
  | [] => s
  | _ :: restChars =>
      if restChars = [] ∨ ext = [] then s else ⟨restChars.reverse⟩

/-- Name of an item's main archive, `f"{base_name} - Main.ba2"`. -/
def mainBa2Name (base : String) : String := base ++ " - Main.ba2"

/-- Name of an item's texture archive, `f"{base_name} - Textures.ba2"`. -/
def textureBa2Name (base : String) : String := base ++ " - Textures.ba2"

/-- Model of `_validate_cc_content_integrity`: classify each plugin's stem as valid
(both archives present) or orphaned (either missing). -/
def validate_cc_content_integrity (fsFiles : List String) :
    List String → List String × List String
  | [] => ([], [])
  | plugin :: rest =>
      let base := stem plugin
      let vo := validate_cc_content_integrity fsFiles rest
      if mainBa2Name base ∈ fsFiles ∧ textureBa2Name base ∈ fsFiles then
        (base :: vo.1, vo.2)
      else
        (vo.1, base :: vo.2)

theorem validate_valid_mem (fsFiles : List String) (plugins : List String)
    (b : String) :
    b ∈ (validate_cc_content_integrity fsFiles plugins).1 ↔
      ∃ p ∈ plugins, stem p = b ∧
        mainBa2Name b ∈ fsFiles ∧ textureBa2Name b ∈ fsFiles := by
  induction plugins with
  | nil => simp [validate_cc_content_integrity]
  | cons plugin rest ih =>
      by_cases h : mainBa2Name (stem plugin) ∈ fsFiles ∧
          textureBa2Name (stem plugin) ∈ fsFiles
      · simp only [validate_cc_content_integrity, if_pos h, List.mem_cons, ih]
        constructor
        · rintro (rfl | ⟨p, hp, rfl, hm, ht⟩)
          · exact ⟨plugin, Or.inl rfl, rfl, h.1, h.2⟩
          · exact ⟨p, Or.inr hp, rfl, hm, ht⟩
        · rintro ⟨p, hp | hp, rfl, hm, ht⟩
          · exact Or.inl (by rw [hp])
          · exact Or.inr ⟨p, hp, rfl, hm, ht⟩
      · simp only [validate_cc_content_integrity, if_neg h, ih]
        constructor
        · rintro ⟨p, hp, rfl, hm, ht⟩
          exact ⟨p, List.mem_cons_of_mem _ hp, rfl, hm, ht⟩
        · rintro ⟨p, hp, rfl, hm, ht⟩
          rcases List.mem_cons.mp hp with rfl | hp
          · exact absurd ⟨hm, ht⟩ h
          · exact ⟨p, hp, rfl, hm, ht⟩

theorem validate_orphaned_mem (fsFiles : List String) (plugins : List String)
    (b : String) :
    b ∈ (validate_cc_content_integrity fsFiles plugins).2 ↔
      ∃ p ∈ plugins, stem p = b ∧
        ¬(mainBa2Name b ∈ fsFiles ∧ textureBa2Name b ∈ fsFiles) := by
  induction plugins with
  | nil => simp [validate_cc_content_integrity]
  | cons plugin rest ih =>
      by_cases h : mainBa2Name (stem plugin) ∈ fsFiles ∧
          textureBa2Name (stem plugin) ∈ fsFiles
      · simp only [validate_cc_content_integrity, if_pos h, ih]
        constructor
        · rintro ⟨p, hp, rfl, hcond⟩
          exact ⟨p, List.mem_cons_of_mem _ hp, rfl, hcond⟩
        · rintro ⟨p, hp, rfl, hcond⟩
          rcases List.mem_cons.mp hp with rfl | hp
          · exact absurd h hcond
          · exact ⟨p, hp, rfl, hcond⟩
      · simp only [validate_cc_content_integrity, if_neg h, List.mem_cons, ih]
        constructor
        · rintro (rfl | ⟨p, hp, rfl, hcond⟩)
          · exact ⟨plugin, Or.inl rfl, rfl, h⟩
          · exact ⟨p, Or.inr hp, rfl, hcond⟩
        · rintro ⟨p, hp | hp, rfl, hcond⟩
          · exact Or.inl (by rw [hp])
          · exact Or.inr ⟨p, hp, rfl, hcond⟩

/-- C4: an item (a plugin's stem) is classified valid iff both its
`- Main.ba2` and `- Textures.ba2` archives exist co-located with the plugin;
it is classified orphaned iff either is missing; the two lists are disjoint.
The scan is a pure function of the directory listing (it mutates nothing by
construction of the embedding). -/
theorem c4_integrity_classification (fsFiles plugins : List String)
    (b : String) :
    (b ∈ (validate_cc_content_integrity fsFiles plugins).1 ↔
      ∃ p ∈ plugins, stem p = b ∧
        mainBa2Name b ∈ fsFiles ∧ textureBa2Name b ∈ fsFiles) ∧
    (b ∈ (validate_cc_content_integrity fsFiles plugins).2 ↔
      ∃ p ∈ plugins, stem p = b ∧
        ¬(mainBa2Name b ∈ fsFiles ∧ textureBa2Name b ∈ fsFiles)) ∧
    (b ∈ (validate_cc_content_integrity fsFiles plugins).1 →
      b ∉ (validate_cc_content_integrity fsFiles plugins).2) := by
  refine ⟨validate_valid_mem fsFiles plugins b,
    validate_orphaned_mem fsFiles plugins b, ?_⟩
  intro hv ho
  obtain ⟨p, _, _, hm, ht⟩ := (validate_valid_mem fsFiles plugins b).mp hv
  obtain ⟨q, _, _, hcond⟩ := (validate_orphaned_mem fsFiles plugins b).mp ho
  exact hcond ⟨hm, ht⟩

/-- C4 witness: a concrete complete item is classified valid, and an item
missing its texture archive is classified orphaned, via
`c4_integrity_classification`. -/
theorem c4_integrity_classification_witness :
    "ccBGSFO4001-PipBoy" ∈
      (validate_cc_content_integrity
        ["ccBGSFO4001-PipBoy - Main.ba2", "ccBGSFO4001-PipBoy - Textures.ba2"]
        ["ccBGSFO4001-PipBoy.esl"]).1 ∧
    "ccBGSFO4001-PipBoy" ∈
      (validate_cc_content_integrity
        ["ccBGSFO4001-PipBoy - Main.ba2"]
        ["ccBGSFO4001-PipBoy.esl"]).2 :=
  ⟨(c4_integrity_classification
      ["ccBGSFO4001-PipBoy - Main.ba2", "ccBGSFO4001-PipBoy - Textures.ba2"]
      ["ccBGSFO4001-PipBoy.esl"] "ccBGSFO4001-PipBoy").1.mpr
      ⟨"ccBGSFO4001-PipBoy.esl", by decide, by decide, by decide, by decide⟩,
   (c4_integrity_classification
      ["ccBGSFO4001-PipBoy - Main.ba2"]
      ["ccBGSFO4001-PipBoy.esl"] "ccBGSFO4001-PipBoy").2.1.mpr
      ⟨"ccBGSFO4001-PipBoy.esl", by decide, by decide, by decide⟩⟩

/-! ## Archive header parsing (merger.py, verify_ba2_integrity lines 618-689,
_get_ba2_file_count lines 524-548, _verify_extraction lines 550-616)

A file's content is a list of byte values.  `f.read(n)` after sequential reads
is a slice that may be short near EOF and never raises; `struct.unpack` raises
`struct.error` when the buffer length is wrong, which is the only exception the
pure byte-level model can raise, so the exception type has one constructor.
The `try`/`except` blocks of the source become an `Except` body plus a total
handler match (the source's `except` ladder ends in a catch-all
`except Exception`).  Error messages keep the source's fixed text with the
interpolated file names/values omitted; the distinct categories are preserved.
The `bsarch -list` cross-check inside `verify_ba2_integrity` only emits
progress notes and never changes the returned value, so it has no counterpart
here. -/

/-- The only exception arising from parsing in-memory bytes. -/
inductive PyExc where
  | structError : PyExc
deriving DecidableEq

/-- Model of `f.read(n)` positioned at `off`: a possibly short slice, never failing. -/
def pyRead (bytes : List Nat) (off n : Nat) : List Nat :=
  (bytes.drop off).take n

/-- Little-endian value of a byte string. -/
def leVal : List Nat → Nat
  | [] => 0
  | b :: rest => b + 256 * leVal rest

/-- Model of `struct.unpack` of an `n`-byte little-endian unsigned integer: raises
`struct.error` unless the buffer has exactly `n` bytes. -/
def unpackLE (buf : List Nat) (n : Nat) : Except PyExc Nat :=
  if buf.length = n then Except.ok (leVal buf) else Except.error PyExc.structError

/-- The bytes of `b'BTDX'`. -/
def BTDX : List Nat := [66, 84, 68, 88]

/-- Model of `bytes.decode('ascii', errors='ignore')`: non-ASCII bytes are dropped. -/
def decodeAsciiIgnore (bs : List Nat) : List Char :=
  (bs.filter (fun b => b < 128)).map Char.ofNat

/-- Model of `str.strip('\x00')`: remove NUL characters from both ends. -/
def stripNul (cs : List Char) : List Char :=
  ((cs.dropWhile (fun c => c = Char.ofNat 0)).reverse.dropWhile
    (fun c => c = Char.ofNat 0)).reverse

/-- The archive type tag as the source decodes it. -/
def archiveTypeString (bs : List Nat) : String :=
  ⟨stripNul (decodeAsciiIgnore bs)⟩

def msgTooSmall : String := "Archive too small"
def msgBadMagic : String := "Invalid BA2 header (expected BTDX)"
def msgBadVersion : String := "Unexpected BA2 version (expected 1 or 8)"
def msgBadType : String := "Unknown archive type (expected GNRL or DX10)"
def msgBadOffset : String := "Corrupted archive (name table beyond EOF)"
def msgStructError : String := "Corrupted archive header"
def msgVerified : String := "Verified"
def msgCountBadHeader : String := "Invalid BA2 header"
def msgCountError : String := "Error reading BA2 header"
def msgNoFilesExtracted : String := "No files extracted"

/-- The `try` body of `verify_ba2_integrity`: magic at offset 0, version at 4,
type tag at 8, file count at 12, name-table offset (8 bytes) at 16. -/
def verifyBody (bytes : List Nat) : Except PyExc (Bool × String) :=
  let magic := pyRead bytes 0 4
  if magic ≠ BTDX then Except.ok (false, msgBadMagic)
  else
    match unpackLE (pyRead bytes 4 4) 4 with
    | Except.error e => Except.error e
    | Except.ok version =>
        if version ≠ 1 ∧ version ≠ 8 then Except.ok (false, msgBadVersion)
        else
          let atype := archiveTypeString (pyRead bytes 8 4)
          if atype ≠ "GNRL" ∧ atype ≠ "DX10" then Except.ok (false, msgBadType)
          else
            match unpackLE (pyRead bytes 12 4) 4 with
            | Except.error e => Except.error e
            | Except.ok _fileCount =>
                match unpackLE (pyRead bytes 16 8) 8 with
                | Except.error e => Except.error e
                | Except.ok ntOffset =>
                    if bytes.length < ntOffset then
                      Except.ok (false, msgBadOffset)
                    else Except.ok (true, msgVerified)

/-- Model of `verify_ba2_integrity`: minimum-size check first, then the `try` body with
its `except struct.error` / `except IOError` / `except Exception` ladder, which
turns every exception into a `(False, message)` result. -/
def verify_ba2_integrity (bytes : List Nat) : Bool × String :=
  if bytes.length < 24 then (false, msgTooSmall)
  else
    match verifyBody bytes with
    | Except.ok r => r
    | Except.error PyExc.structError => (false, msgStructError)

/-- The `try` body of `_get_ba2_file_count`: magic at 0, skip 8, count at 12. -/
def getCountBody (bytes : List Nat) : Except PyExc (Bool × Nat × String) :=
  let magic := pyRead bytes 0 4
  if magic ≠ BTDX then Except.ok (false, 0, msgCountBadHeader)
  else
    match unpackLE (pyRead bytes 12 4) 4 with
    | Except.error e => Except.error e
    | Except.ok n => Except.ok (true, n, "")

/-- Model of `_get_ba2_file_count` with its catch-all `except Exception`. -/
def get_ba2_file_count (bytes : List Nat) : Bool × Nat × String :=
  match getCountBody bytes with
  | Except.ok r => r
  | Except.error _ => (false, 0, msgCountError)

/-- Model of `_verify_extraction`: header count is read; an unreadable header is only a
soft warning, after which (and likewise when the declared count is positive)
the only hard check is that the extraction directory is non-empty; a declared
count of zero passes unconditionally. -/
def verify_extraction (ba2 : List Nat) (extractedCount : Nat) : Bool × String :=
  let r := get_ba2_file_count ba2
  if r.1 = false then
    if extractedCount = 0 then (false, msgNoFilesExtracted) else (true, "")
  else if r.2.1 = 0 then (true, "")
  else if extractedCount = 0 then (false, msgNoFilesExtracted)
  else (true, "")

theorem pyRead_length (bytes : List Nat) (off n : Nat)
    (h : off + n ≤ bytes.length) : (pyRead bytes off n).length = n := by
  simp only [pyRead, List.length_take, List.length_drop]
  omega

/-- C5: the format validator rejects an under-24-byte file (whatever its
content, i.e. before any header field is parsed), a wrong 4-byte magic, a
version outside {1, 8}, a type tag that is neither GNRL nor DX10, and a
name-table offset beyond the end of the file — each with its own distinct
error message. -/
theorem c5_format_validator :
    (∀ b : List Nat, b.length < 24 →
      verify_ba2_integrity b = (false, msgTooSmall)) ∧
    (∀ b : List Nat, 24 ≤ b.length → pyRead b 0 4 ≠ BTDX →
      verify_ba2_integrity b = (false, msgBadMagic)) ∧
    (∀ b : List Nat, 24 ≤ b.length → pyRead b 0 4 = BTDX →
      leVal (pyRead b 4 4) ≠ 1 → leVal (pyRead b 4 4) ≠ 8 →
      verify_ba2_integrity b = (false, msgBadVersion)) ∧
    (∀ b : List Nat, 24 ≤ b.length → pyRead b 0 4 = BTDX →
      (leVal (pyRead b 4 4) = 1 ∨ leVal (pyRead b 4 4) = 8) →
      archiveTypeString (pyRead b 8 4) ≠ "GNRL" →
      archiveTypeString (pyRead b 8 4) ≠ "DX10" →
      verify_ba2_integrity b = (false, msgBadType)) ∧
    (∀ b : List Nat, 24 ≤ b.length → pyRead b 0 4 = BTDX →
      (leVal (pyRead b 4 4) = 1 ∨ leVal (pyRead b 4 4) = 8) →
      (archiveTypeString (pyRead b 8 4) = "GNRL" ∨
        archiveTypeString (pyRead b 8 4) = "DX10") →
      b.length < leVal (pyRead b 16 8) →
      verify_ba2_integrity b = (false, msgBadOffset)) ∧
    (msgTooSmall ≠ msgBadMagic ∧ msgTooSmall ≠ msgBadVersion ∧
      msgTooSmall ≠ msgBadType ∧ msgTooSmall ≠ msgBadOffset ∧
      msgBadMagic ≠ msgBadVersion ∧ msgBadMagic ≠ msgBadType ∧
      msgBadMagic ≠ msgBadOffset ∧ msgBadVersion ≠ msgBadType ∧
      msgBadVersion ≠ msgBadOffset ∧ msgBadType ≠ msgBadOffset) := by
  have hver : ∀ b : List Nat, 24 ≤ b.length →
      unpackLE (pyRead b 4 4) 4 = Except.ok (leVal (pyRead b 4 4)) := by
    intro b hb
    simp [unpackLE, pyRead_length b 4 4 (by omega)]
  have hcnt : ∀ b : List Nat, 24 ≤ b.length →
      unpackLE (pyRead b 12 4) 4 = Except.ok (leVal (pyRead b 12 4)) := by
    intro b hb
    simp [unpackLE, pyRead_length b 12 4 (by omega)]
  have hoff : ∀ b : List Nat, 24 ≤ b.length →
      unpackLE (pyRead b 16 8) 8 = Except.ok (leVal (pyRead b 16 8)) := by
    intro b hb
    simp [unpackLE, pyRead_length b 16 8 (by omega)]
  refine ⟨?_, ?_, ?_, ?_, ?_, ?_⟩
  · intro b hb
    simp [verify_ba2_integrity, hb]
  · intro b hb hm
    simp [verify_ba2_integrity, Nat.not_lt.mpr hb, verifyBody, hm]
  · intro b hb hm h1 h8
    simp [verify_ba2_integrity, Nat.not_lt.mpr hb, verifyBody, hm, hver b hb,
      h1, h8]
  · intro b hb hm hv hg hd
    rcases hv with hv | hv <;>
      simp [verify_ba2_integrity, Nat.not_lt.mpr hb, verifyBody, hm,
        hver b hb, hv, hg, hd]
  · intro b hb hm hv ht hofs
    rcases hv with hv | hv <;> rcases ht with ht | ht <;>
      simp [verify_ba2_integrity, Nat.not_lt.mpr hb, verifyBody, hm,
        hver b hb, hv, ht, hcnt b hb, hoff b hb, hofs]
  · refine ⟨?_, ?_, ?_, ?_, ?_, ?_, ?_, ?_, ?_, ?_⟩ <;> decide

/-- C5 witness: each rejection branch exercised at a concrete file, via
`c5_format_validator`. -/
theorem c5_format_validator_witness :
    verify_ba2_integrity [] = (false, msgTooSmall) ∧
    verify_ba2_integrity (List.replicate 24 0) = (false, msgBadMagic) ∧
    verify_ba2_integrity
        (BTDX ++ [2, 0, 0, 0] ++ [71, 78, 82, 76] ++ List.replicate 12 0) =
      (false, msgBadVersion) ∧
    verify_ba2_integrity
        (BTDX ++ [1, 0, 0, 0] ++ [65, 66, 67, 68] ++ List.replicate 12 0) =
      (false, msgBadType) ∧
    verify_ba2_integrity
        (BTDX ++ [1, 0, 0, 0] ++ [71, 78, 82, 76] ++ [0, 0, 0, 0] ++
          [255, 0, 0, 0, 0, 0, 0, 0]) =
      (false, msgBadOffset) :=
  ⟨c5_format_validator.1 [] (by decide),
   c5_format_validator.2.1 (List.replicate 24 0) (by decide) (by decide),
   c5_format_validator.2.2.1 _ (by decide) (by decide) (by decide) (by decide),
   c5_format_validator.2.2.2.1 _ (by decide) (by decide) (Or.inl (by decide))
     (by decide) (by decide),
   c5_format_validator.2.2.2.2.1 _ (by decide) (by decide)
     (Or.inl (by decide)) (Or.inl (by decide)) (by decide)⟩

/-- C10: the integrity validator and the header file-count reader are total
over arbitrary file contents: every exceptional outcome of the parsing body
(`struct.error` from a short or malformed buffer) is converted by the `except`
ladder into a `False` result carrying a message, so no exception reaches the
caller, and on any input each function yields a plain result pair. -/
theorem c10_validator_total (b : List Nat) :
    (∀ e, verifyBody b = Except.error e →
      verify_ba2_integrity b = (false, msgStructError) ∨
      verify_ba2_integrity b = (false, msgTooSmall)) ∧
    (∀ e, getCountBody b = Except.error e →
      get_ba2_file_count b = (false, 0, msgCountError)) ∧
    (verify_ba2_integrity b =
      ((verify_ba2_integrity b).1, (verify_ba2_integrity b).2)) ∧
    (get_ba2_file_count b =
      ((get_ba2_file_count b).1, (get_ba2_file_count b).2.1,
        (get_ba2_file_count b).2.2)) := by
  refine ⟨?_, ?_, rfl, rfl⟩
  · intro e he
    by_cases hb : b.length < 24
    · right
      simp [verify_ba2_integrity, hb]
    · left
      cases e
      simp [verify_ba2_integrity, hb, he]
  · intro e he
    cases e
    simp [get_ba2_file_count, he]

/-- C10 witness: a 4-byte file makes the count reader's body raise
`struct.error`, and the handler converts it to a `False` result, via
`c10_validator_total`. -/
theorem c10_validator_total_witness :
    get_ba2_file_count BTDX = (false, 0, msgCountError) :=
  (c10_validator_total BTDX).2.1 PyExc.structError rfl

/-! ## Merge pipeline (merger.py, merge_cc_content, lines 824-1161)

The pipeline is modelled as a trace of externally visible file-system events
plus an optional summary (`None` models the `{"success": False, ...}` early
returns).  Everything the pipeline learns from disk contents or from the
external BSArch tool — whether each extraction (including its verification)
succeeds, whether sound/general files were found after classification, the
texture (file, size) list, and whether each pack succeeds — is supplied by a
`MergeEnv` oracle, so the theorems hold for every behaviour of those
collaborators.  The event order mirrors the source: cleanup of old merged
files, backup copies, main extractions, texture extractions, string moves,
sound pack, general pack, texture-group packs, plugin registration, deletion
of the original archives, temp cleanup; each failing step returns immediately
with the trace so far, as the source returns its error dictionary. -/

/-- Externally visible file-system events of a merge run. -/
inductive MEvent where
  | deleteMerged : String → MEvent
  | backup : String → MEvent
  | extract : String → MEvent
  | moveStrings : MEvent
  | packArchive : String → MEvent
  | createEsl : String → MEvent
  | registerPlugins : MEvent
  | deleteOriginal : String → MEvent
  | cleanupTemp : MEvent
deriving DecidableEq

def MEvent.isDeleteOriginal : MEvent → Bool
  | MEvent.deleteOriginal _ => true
  | _ => false

def MEvent.isBackup : MEvent → Bool
  | MEvent.backup _ => true
  | _ => false

/-- The summary dictionary built at the end of a successful merge. -/
structure MergeSummary where
  archives_created : Nat
  files_processed : Nat
  esls_created : Nat
deriving DecidableEq

/-- Oracle for everything the pipeline learns from disk or from BSArch. -/
structure MergeEnv where
  oldMerged : List String
  extractOk : String → Bool
  hasSounds : Bool
  hasGeneral : Bool
  textureFiles : List (Nat × Nat)
  packSoundOk : Bool
  packGeneralOk : Bool
  packTexOk : Nat → Bool

/-- The BA2 files of the valid items, two per item in item order
(`cc_files.append(main_ba2); cc_files.append(texture_ba2)`). -/
def ccArchives (valid : List String) : List String :=
  (valid.map (fun b => [mainBa2Name b, textureBa2Name b])).flatten

/-- Substring test on character lists. -/
def hasInfixChars (needle : List Char) : List Char → Bool
  | [] => needle.isEmpty
  | c :: rest => needle.isPrefixOf (c :: rest) || hasInfixChars needle rest

/-- Model of `str.lower()` on one character, for the ASCII range the domain's file
names use. -/
def lowerChar (c : Char) : Char :=
  if 65 ≤ c.toNat ∧ c.toNat ≤ 90 then Char.ofNat (c.toNat + 32) else c

/-- The test `"texture" in f.name.lower()` from the source's archive partition. -/
def containsTexture (s : String) : Bool :=
  hasInfixChars "texture".data (s.data.map lowerChar)

/-- The partition `main_ba2s = [f for f in cc_files if "texture" not in f.name.lower()]`. -/
def mainArchives (cc : List String) : List String :=
  cc.filter (fun f => !containsTexture f)

/-- The partition `texture_ba2s = [f for f in cc_files if "texture" in f.name.lower()]`. -/
def textureArchives (cc : List String) : List String :=
  cc.filter (fun f => containsTexture f)

/-- An extraction loop: each archive is extracted then verified; the first
failure aborts the run (`return {"success": False, ...}`). -/
def runPhase (ok : String → Bool) (mk : String → MEvent) :
    List String → List MEvent × Bool
  | [] => ([], true)
  | f :: rest =>
      if ok f then
        let r := runPhase ok mk rest
        (mk f :: r.1, r.2)
      else ([mk f], false)

/-- A conditional single-archive repack step: the archive is packed only if
its content bucket is non-empty; on success the archive is recorded and its
ESL is created (events, archives counter, ESLs counter, success flag). -/
def packPhase (present ok : Bool) (nm : String) :
    List MEvent × Nat × Nat × Bool :=
  if present then
    if ok then ([MEvent.packArchive nm, MEvent.createEsl nm], 1, 1, true)
    else ([MEvent.packArchive nm], 0, 0, false)
  else ([], 0, 0, true)

/-- The texture-group repack loop: groups are packed in order with 1-based
vanilla-style names; the first failure aborts. -/
def packTexGroups (ok : Nat → Bool) :
    Nat → List (List (Nat × Nat)) → List MEvent × Nat × Nat × Bool
  | _, [] => ([], 0, 0, true)
  | idx, _g :: rest =>
      let nm := "CCPacked_Main_Textures" ++ toString (idx + 1)
      if ok idx then
        let r := packTexGroups ok (idx + 1) rest
        (MEvent.packArchive nm :: MEvent.createEsl nm :: r.1,
          r.2.1 + 1, r.2.2.1 + 1, r.2.2.2)
      else ([MEvent.packArchive nm], 0, 0, false)

/-- Model of `merge_cc_content` as an event trace plus an optional summary. -/
def mergeRun (valid : List String) (env : MergeEnv) :
    List MEvent × Option MergeSummary :=
  if valid.isEmpty then ([], none)
  else
    let cc := ccArchives valid
    let pre0 := env.oldMerged.map MEvent.deleteMerged ++ cc.map MEvent.backup
    let em := runPhase env.extractOk MEvent.extract (mainArchives cc)
    if em.2 = false then (pre0 ++ em.1, none)
    else
      let et := runPhase env.extractOk MEvent.extract (textureArchives cc)
      if et.2 = false then (pre0 ++ em.1 ++ et.1, none)
      else
        let pre1 := pre0 ++ em.1 ++ et.1 ++ [MEvent.moveStrings]
        let sp := packPhase env.hasSounds env.packSoundOk "CCPacked_Sounds"
        if sp.2.2.2 = false then (pre1 ++ sp.1, none)
        else
          let gp := packPhase env.hasGeneral env.packGeneralOk "CCPacked_Main"
          if gp.2.2.2 = false then (pre1 ++ sp.1 ++ gp.1, none)
          else
            let tx := packTexGroups env.packTexOk 0
              (splitTextures env.textureFiles MAX_SIZE)
            if tx.2.2.2 = false then (pre1 ++ sp.1 ++ gp.1 ++ tx.1, none)
            else
              (pre1 ++ sp.1 ++ gp.1 ++ tx.1 ++ [MEvent.registerPlugins] ++
                  cc.map MEvent.deleteOriginal ++ [MEvent.cleanupTemp],
                some ⟨sp.2.1 + gp.2.1 + tx.2.1, cc.length,
                  sp.2.2.1 + gp.2.2.1 + tx.2.2.1⟩)

theorem runPhase_shape (ok : String → Bool) (mk : String → MEvent) :
    ∀ (l : List String) (e : MEvent), e ∈ (runPhase ok mk l).1 →
      ∃ f, e = mk f := by
  intro l
  induction l with
  | nil => simp [runPhase]
  | cons f rest ih =>
      intro e he
      by_cases h : ok f
      · simp only [runPhase, if_pos h, List.mem_cons] at he
        rcases he with rfl | he
        · exact ⟨f, rfl⟩
        · exact ih e he
      · simp only [runPhase, if_neg h, List.mem_singleton] at he
        exact ⟨f, he⟩

theorem runPhase_allOk (ok : String → Bool) (mk : String → MEvent) :
    ∀ l : List String, (runPhase ok mk l).2 = true →
      ∀ f ∈ l, ok f = true := by
  intro l
  induction l with
  | nil => simp
  | cons f rest ih =>
      intro hok g hg
      by_cases h : ok f
      · simp only [runPhase, if_pos h] at hok
        rcases List.mem_cons.mp hg with rfl | hg
        · exact h
        · exact ih hok g hg
      · simp only [runPhase, if_neg h] at hok
        exact absurd hok (by simp)

theorem packPhase_shape (present ok : Bool) (nm : String) (e : MEvent)
    (he : e ∈ (packPhase present ok nm).1) :
    (∃ x, e = MEvent.packArchive x) ∨ (∃ x, e = MEvent.createEsl x) := by
  cases present <;> cases ok <;> simp [packPhase] at he <;>
    first
      | exact Or.inl ⟨nm, he⟩
      | rcases he with rfl | rfl
        · exact Or.inl ⟨nm, rfl⟩
        · exact Or.inr ⟨nm, rfl⟩

theorem packPhase_counts (present ok : Bool) (nm : String)
    (h : (packPhase present ok nm).2.2.2 = true) :
    (packPhase present ok nm).2.2.1 = (packPhase present ok nm).2.1 := by
  cases present <;> cases ok <;> simp [packPhase] at h ⊢

theorem packTexGroups_shape (ok : Nat → Bool) :
    ∀ (gs : List (List (Nat × Nat))) (idx : Nat) (e : MEvent),
      e ∈ (packTexGroups ok idx gs).1 →
      (∃ x, e = MEvent.packArchive x) ∨ (∃ x, e = MEvent.createEsl x) := by
  intro gs
  induction gs with
  | nil => simp [packTexGroups]
  | cons g rest ih =>
      intro idx e he
      by_cases h : ok idx
      · simp only [packTexGroups, if_pos h, List.mem_cons] at he
        rcases he with rfl | rfl | he
        · exact Or.inl ⟨_, rfl⟩
        · exact Or.inr ⟨_, rfl⟩
        · exact ih (idx + 1) e he
      · simp only [packTexGroups, if_neg h, List.mem_singleton] at he
        exact Or.inl ⟨_, he⟩

theorem packTexGroups_counts (ok : Nat → Bool) :
    ∀ (gs : List (List (Nat × Nat))) (idx : Nat),
      (packTexGroups ok idx gs).2.2.2 = true →
      (packTexGroups ok idx gs).2.2.1 = (packTexGroups ok idx gs).2.1 := by
  intro gs
  induction gs with
  | nil => simp [packTexGroups]
  | cons g rest ih =>
      intro idx h
      by_cases hk : ok idx
      · simp only [packTexGroups, if_pos hk] at h ⊢
        rw [ih (idx + 1) h]
      · simp only [packTexGroups, if_neg hk] at h
        exact (Bool.false_ne_true h).elim

theorem ccArchives_length (valid : List String) :
    (ccArchives valid).length = 2 * valid.length := by
  induction valid with
  | nil => simp [ccArchives]
  | cons b rest ih =>
      simp only [ccArchives, List.map_cons, List.flatten_cons] at ih ⊢
      simp [ih]
      omega

theorem noDel_append {A B : List MEvent}
    (hA : ∀ e ∈ A, MEvent.isDeleteOriginal e = false)
    (hB : ∀ e ∈ B, MEvent.isDeleteOriginal e = false) :
    ∀ e ∈ A ++ B, MEvent.isDeleteOriginal e = false := by
  intro e he
  rcases List.mem_append.mp he with h | h
  · exact hA e h
  · exact hB e h

theorem noDel_deleteMerged (l : List String) :
    ∀ e ∈ l.map MEvent.deleteMerged, MEvent.isDeleteOriginal e = false := by
  intro e he
  obtain ⟨x, _, rfl⟩ := List.mem_map.mp he
  rfl

theorem noDel_backup (l : List String) :
    ∀ e ∈ l.map MEvent.backup, MEvent.isDeleteOriginal e = false := by
  intro e he
  obtain ⟨x, _, rfl⟩ := List.mem_map.mp he
  rfl

theorem noDel_runPhase (ok : String → Bool) (l : List String) :
    ∀ e ∈ (runPhase ok MEvent.extract l).1,
      MEvent.isDeleteOriginal e = false := by
  intro e he
  obtain ⟨f, rfl⟩ := runPhase_shape ok MEvent.extract l e he
  rfl

theorem noDel_packPhase (present ok : Bool) (nm : String) :
    ∀ e ∈ (packPhase present ok nm).1, MEvent.isDeleteOriginal e = false := by
  intro e he
  rcases packPhase_shape present ok nm e he with ⟨x, rfl⟩ | ⟨x, rfl⟩ <;> rfl

theorem noDel_packTexGroups (ok : Nat → Bool) (idx : Nat)
    (gs : List (List (Nat × Nat))) :
    ∀ e ∈ (packTexGroups ok idx gs).1, MEvent.isDeleteOriginal e = false := by
  intro e he
  rcases packTexGroups_shape ok gs idx e he with ⟨x, rfl⟩ | ⟨x, rfl⟩ <;> rfl

theorem noDel_moveStrings :
    ∀ e ∈ [MEvent.moveStrings], MEvent.isDeleteOriginal e = false := by
  intro e he
  simp only [List.mem_singleton] at he
  subst he
  rfl

theorem noDel_registerPlugins :
    ∀ e ∈ [MEvent.registerPlugins], MEvent.isDeleteOriginal e = false := by
  intro e he
  simp only [List.mem_singleton] at he
  subst he
  rfl

/-- Every merge trace splits into a deletion-free prefix and a suffix that
contains no backup event; whenever the suffix is non-empty (i.e. the run
reached the cleanup step) the prefix contains a backup of every original
archive of the valid items. -/
theorem mergeRun_split (valid : List String) (env : MergeEnv) :
    ∃ A B, (mergeRun valid env).1 = A ++ B ∧
      (∀ e ∈ A, MEvent.isDeleteOriginal e = false) ∧
      (∀ e ∈ B, MEvent.isBackup e = false) ∧
      (B ≠ [] → ∀ g ∈ ccArchives valid, MEvent.backup g ∈ A) := by
  by_cases hv : valid.isEmpty
  · refine ⟨[], [], ?_, by simp, by simp, by simp⟩
    simp [mergeRun, hv]
  · simp only [mergeRun, if_neg hv]
    set cc := ccArchives valid with hcc
    set pre0 := env.oldMerged.map MEvent.deleteMerged ++ cc.map MEvent.backup
      with hpre0
    have hpre0ok : ∀ e ∈ pre0, MEvent.isDeleteOriginal e = false :=
      noDel_append (noDel_deleteMerged _) (noDel_backup _)
    have hback : ∀ g ∈ cc, MEvent.backup g ∈ pre0 := by
      intro g hg
      rw [hpre0]
      exact List.mem_append.mpr (Or.inr (List.mem_map_of_mem _ hg))
    set em := runPhase env.extractOk MEvent.extract (mainArchives cc) with hem
    by_cases h1 : em.2 = false
    · refine ⟨pre0 ++ em.1, [], by simp [h1], ?_, by simp, by simp⟩
      exact noDel_append hpre0ok (hem ▸ noDel_runPhase _ _)
    · simp only [if_neg h1]
      set et := runPhase env.extractOk MEvent.extract (textureArchives cc)
        with het
      by_cases h2 : et.2 = false
      · refine ⟨pre0 ++ em.1 ++ et.1, [], by simp [h2], ?_, by simp, by simp⟩
        exact noDel_append (noDel_append hpre0ok (hem ▸ noDel_runPhase _ _))
          (het ▸ noDel_runPhase _ _)
      · simp only [if_neg h2]
        set pre1 := pre0 ++ em.1 ++ et.1 ++ [MEvent.moveStrings] with hpre1
        have hpre1ok : ∀ e ∈ pre1, MEvent.isDeleteOriginal e = false := by
          rw [hpre1]
          refine noDel_append (noDel_append (noDel_append hpre0ok ?_) ?_)
            noDel_moveStrings
          · exact hem ▸ noDel_runPhase _ _
          · exact het ▸ noDel_runPhase _ _
        set sp := packPhase env.hasSounds env.packSoundOk "CCPacked_Sounds"
          with hsp
        by_cases h3 : sp.2.2.2 = false
        · refine ⟨pre1 ++ sp.1, [], by simp [h3], ?_, by simp, by simp⟩
          exact noDel_append hpre1ok (hsp ▸ noDel_packPhase _ _ _)
        · simp only [if_neg h3]
          set gp := packPhase env.hasGeneral env.packGeneralOk "CCPacked_Main"
            with hgp
          by_cases h4 : gp.2.2.2 = false
          · refine ⟨pre1 ++ sp.1 ++ gp.1, [], by simp [h4], ?_, by simp,
              by simp⟩
            exact noDel_append
              (noDel_append hpre1ok (hsp ▸ noDel_packPhase _ _ _))
              (hgp ▸ noDel_packPhase _ _ _)
          · simp only [if_neg h4]
            set tx := packTexGroups env.packTexOk 0
              (splitTextures env.textureFiles MAX_SIZE) with htx
            by_cases h5 : tx.2.2.2 = false
            · refine ⟨pre1 ++ sp.1 ++ gp.1 ++ tx.1, [], by simp [h5], ?_,
                by simp, by simp⟩
              exact noDel_append (noDel_append
                (noDel_append hpre1ok (hsp ▸ noDel_packPhase _ _ _))
                (hgp ▸ noDel_packPhase _ _ _)) (htx ▸ noDel_packTexGroups _ _ _)
            · simp only [if_neg h5]
              refine ⟨pre1 ++ sp.1 ++ gp.1 ++ tx.1 ++ [MEvent.registerPlugins],
                cc.map MEvent.deleteOriginal ++ [MEvent.cleanupTemp],
                by simp, ?_, ?_, ?_⟩
              · exact noDel_append (noDel_append (noDel_append
                  (noDel_append hpre1ok (hsp ▸ noDel_packPhase _ _ _))
                  (hgp ▸ noDel_packPhase _ _ _))
                  (htx ▸ noDel_packTexGroups _ _ _)) noDel_registerPlugins
              · intro e he
                rcases List.mem_append.mp he with h | h
                · obtain ⟨x, _, rfl⟩ := List.mem_map.mp h
                  rfl
                · simp only [List.mem_singleton] at h
                  subst h
                  rfl
              · intro _ g hg
                have hmem := hback g hg
                rw [hpre1]
                simp only [List.mem_append]
                tauto

/-- C7: in every merge run (for every environment behaviour), every event that
deletes an original item archive occurs strictly after every backup-copy
event, and if any original archive is deleted then every original archive of
the valid items has a backup-copy event in the trace. -/
theorem c7_backup_precedes_deletion (valid : List String) (env : MergeEnv) :
    (∀ (i j : Nat) (g f : String),
        (mergeRun valid env).1[i]? = some (MEvent.backup g) →
        (mergeRun valid env).1[j]? = some (MEvent.deleteOriginal f) →
        i < j) ∧
    (∀ f, MEvent.deleteOriginal f ∈ (mergeRun valid env).1 →
        ∀ g ∈ ccArchives valid, MEvent.backup g ∈ (mergeRun valid env).1) := by
  obtain ⟨A, B, htr, hA, hB, hAB⟩ := mergeRun_split valid env
  constructor
  · intro i j g f hi hj
    have hiA : i < A.length := by
      by_contra hge
      push_neg at hge
      rw [htr, List.getElem?_append_right hge] at hi
      have hmem : MEvent.backup g ∈ B := List.getElem?_mem hi
      simpa [MEvent.isBackup] using hB _ hmem
    have hjA : A.length ≤ j := by
      by_contra hlt
      push_neg at hlt
      rw [htr, List.getElem?_append_left hlt] at hj
      have hmem : MEvent.deleteOriginal f ∈ A := List.getElem?_mem hj
      simpa [MEvent.isDeleteOriginal] using hA _ hmem
    omega
  · intro f hf g hg
    rw [htr] at hf ⊢
    rcases List.mem_append.mp hf with hfa | hfb
    · simpa [MEvent.isDeleteOriginal] using hA _ hfa
    · exact List.mem_append.mpr
        (Or.inl (hAB (List.ne_nil_of_mem hfb) g hg))

/-- C7 witness: a concrete single-item all-success run, via
`c7_backup_precedes_deletion`. -/
theorem c7_backup_precedes_deletion_witness :
    MEvent.backup (mainBa2Name "ccTest") ∈
      (mergeRun ["ccTest"]
        ⟨[], fun _ => true, false, false, [], true, true, fun _ => true⟩).1 :=
  (c7_backup_precedes_deletion ["ccTest"]
      ⟨[], fun _ => true, false, false, [], true, true, fun _ => true⟩).2
    (textureBa2Name "ccTest") (by decide) (mainBa2Name "ccTest") (by decide)

/-- C9: whenever a merge returns success, the summary reports exactly one
created ESL per created archive, and a processed-file count of exactly two
archives per valid item. -/
theorem c9_summary_invariants (valid : List String) (env : MergeEnv)
    (tr : List MEvent) (s : MergeSummary)
    (h : mergeRun valid env = (tr, some s)) :
    s.esls_created = s.archives_created ∧
    s.files_processed = 2 * valid.length := by
  simp only [mergeRun] at h
  split at h
  next => simp at h
  next =>
    split at h
    next => simp at h
    next h1 =>
      split at h
      next => simp at h
      next h2 =>
        split at h
        next => simp at h
        next h3 =>
          split at h
          next => simp at h
          next h4 =>
            split at h
            next => simp at h
            next h5 =>
              simp only [Bool.not_eq_false] at h3 h4 h5
              have hs : s = ⟨(packPhase env.hasSounds env.packSoundOk
                    "CCPacked_Sounds").2.1 +
                  (packPhase env.hasGeneral env.packGeneralOk
                    "CCPacked_Main").2.1 +
                  (packTexGroups env.packTexOk 0
                    (splitTextures env.textureFiles MAX_SIZE)).2.1,
                  (ccArchives valid).length,
                  (packPhase env.hasSounds env.packSoundOk
                    "CCPacked_Sounds").2.2.1 +
                  (packPhase env.hasGeneral env.packGeneralOk
                    "CCPacked_Main").2.2.1 +
                  (packTexGroups env.packTexOk 0
                    (splitTextures env.textureFiles MAX_SIZE)).2.2.1⟩ := by
                have hsnd := congrArg Prod.snd h
                simpa using hsnd.symm
              subst hs
              constructor
              · show _ + _ + _ = _ + _ + _
                rw [packPhase_counts _ _ _ h3, packPhase_counts _ _ _ h4,
                  packTexGroups_counts _ _ _ h5]
              · exact ccArchives_length valid

/-- C9 witness: a concrete single-item all-success run, via
`c9_summary_invariants`. -/
theorem c9_summary_invariants_witness :
    MergeSummary.esls_created ⟨0, 2, 0⟩ =
      MergeSummary.archives_created ⟨0, 2, 0⟩ ∧
    MergeSummary.files_processed ⟨0, 2, 0⟩ =
      2 * (["ccTest"] : List String).length :=
  c9_summary_invariants ["ccTest"]
    ⟨[], fun _ => true, false, false, [], true, true, fun _ => true⟩
    [MEvent.backup (mainBa2Name "ccTest"),
      MEvent.backup (textureBa2Name "ccTest"),
      MEvent.extract (mainBa2Name "ccTest"),
      MEvent.extract (textureBa2Name "ccTest"),
      MEvent.moveStrings, MEvent.registerPlugins,
      MEvent.deleteOriginal (mainBa2Name "ccTest"),
      MEvent.deleteOriginal (textureBa2Name "ccTest"),
      MEvent.cleanupTemp]
    ⟨0, 2, 0⟩ (by decide)

/-- C2 counterexample: an archive whose header declares 5 files passes
extraction verification with only 1 extracted file, so the extracted count is
not checked against the header's declared count and partial extraction is
silently tolerated. -/
theorem c2_counterexample :
    verify_extraction
        (BTDX ++ [1, 0, 0, 0] ++ [71, 78, 82, 76] ++ [5, 0, 0, 0]) 1 =
      (true, "") ∧
    get_ba2_file_count
        (BTDX ++ [1, 0, 0, 0] ++ [71, 78, 82, 76] ++ [5, 0, 0, 0]) =
      (true, 5, "") ∧
    (1 : Nat) ≠ 5 := by
  refine ⟨rfl, rfl, by decide⟩

/-- C2 (amended): after each archive is unpacked, verification reads the
header's declared count but fails exactly when zero files are present in the
extraction directory and it is not the case that the header was read
successfully with a declared count of zero (an unreadable header is only a
soft warning, and a declared count of zero passes unconditionally); and the
merge aborts on the first extraction/verification failure — a successful merge
implies every archive's extraction step succeeded. -/
theorem c2_amended :
    (∀ (b : List Nat) (n : Nat),
      (verify_extraction b n).1 = false ↔
        n = 0 ∧ ¬((get_ba2_file_count b).1 = true ∧
          (get_ba2_file_count b).2.1 = 0)) ∧
    (∀ (valid : List String) (env : MergeEnv) (tr : List MEvent)
        (s : MergeSummary), mergeRun valid env = (tr, some s) →
      ∀ f ∈ ccArchives valid, env.extractOk f = true) := by
  constructor
  · intro b n
    rcases h1 : (get_ba2_file_count b).1 with _ | _
    · by_cases hn : n = 0 <;> simp [verify_extraction, h1, hn]
    · by_cases hc : (get_ba2_file_count b).2.1 = 0
      · simp [verify_extraction, h1, hc]
      · by_cases hn : n = 0 <;> simp [verify_extraction, h1, hc, hn]
  · intro valid env tr s h f hf
    have hsplit : f ∈ mainArchives (ccArchives valid) ∨
        f ∈ textureArchives (ccArchives valid) := by
      by_cases hct : containsTexture f
      · exact Or.inr (List.mem_filter.mpr ⟨hf, hct⟩)
      · exact Or.inl (List.mem_filter.mpr ⟨hf, by simp [hct]⟩)
    simp only [mergeRun] at h
    split at h
    next => simp at h
    next =>
      split at h
      next => simp at h
      next h1 =>
        split at h
        next => simp at h
        next h2 =>
          simp only [Bool.not_eq_false] at h1 h2
          rcases hsplit with hm | ht
          · exact runPhase_allOk env.extractOk MEvent.extract _ h1 f hm
          · exact runPhase_allOk env.extractOk MEvent.extract _ h2 f ht

/-- C2 witness: verification fails on an empty extraction of an archive with
an unreadable header, via `c2_amended`. -/
theorem c2_amended_witness : (verify_extraction [] 0).1 = false :=
  (c2_amended.1 [] 0).mpr ⟨rfl, by decide⟩

/-! ## LoadOrderRegistry (merger.py, _add_to_plugins_txt lines 1281-1323 and
_remove_from_plugins_txt lines 1325-1365)

The registry file is its list of (stripped) lines.  `add` walks the requested
ESL names, appending `"*" + esl` whenever neither the enabled (`*`-prefixed)
nor the bare form is already a line, and reports whether anything changed;
`remove` walks the lines, dropping each line whose `lstrip("*")` is in the
removal set, and reports whether anything was dropped.  The source writes the
file back exactly when the change flag is set, so "writes back only if
changed" is the statement that the flag is set iff the line list changed.
The loops are transcribed recursively, preserving order. -/

/-- Model of `line.lstrip("*")`: strip all leading asterisks. -/
def lstripStar (s : String) : String :=
  ⟨s.data.dropWhile (fun c => c = '*')⟩

/-- The `for esl in esl_names` loop of `_add_to_plugins_txt`; `lines` is the
list mutated so far. -/
def add_go (lines : List String) : List String → List String × Bool
  | [] => (lines, false)
  | esl :: rest =>
      if ("*" ++ esl) ∈ lines ∨ esl ∈ lines then add_go lines rest
      else ((add_go (lines ++ ["*" ++ esl]) rest).1, true)

/-- Model of `_add_to_plugins_txt` on the in-memory line list. -/
def add_to_plugins_txt (lines names : List String) : List String × Bool :=
  add_go lines names

/-- The `for line in lines` loop of `_remove_from_plugins_txt`. -/
def remove_go (eslNames : List String) : List String → List String × Bool
  | [] => ([], false)
  | line :: rest =>
      let r := remove_go eslNames rest
      if lstripStar line ∈ eslNames then (r.1, true)
      else (line :: r.1, r.2)

/-- Model of `_remove_from_plugins_txt` on the in-memory line list. -/
def remove_from_plugins_txt (lines names : List String) :
    List String × Bool :=
  remove_go names lines

theorem lstripStar_star (s : String) : lstripStar ("*" ++ s) = lstripStar s := by
  have h : ("*" ++ s).data = '*' :: s.data := rfl
  simp [lstripStar, h, List.dropWhile]

theorem add_go_skip (names : List String) :
    ∀ lines : List String,
      (∀ esl ∈ names, ("*" ++ esl) ∈ lines ∨ esl ∈ lines) →
      add_go lines names = (lines, false) := by
  induction names with
  | nil => intro lines _; rfl
  | cons esl rest ih =>
      intro lines h
      have hc := h esl (List.mem_cons_self _ _)
      simp only [add_go, if_pos hc]
      exact ih lines (fun e he => h e (List.mem_cons_of_mem _ he))

theorem add_go_tail (names : List String) :
    ∀ lines : List String, ∃ tail,
      (add_go lines names).1 = lines ++ tail ∧
      ∀ t ∈ tail, ∃ esl ∈ names, t = "*" ++ esl := by
  induction names with
  | nil => intro lines; exact ⟨[], by simp [add_go], by simp⟩
  | cons esl rest ih =>
      intro lines
      by_cases hc : ("*" ++ esl) ∈ lines ∨ esl ∈ lines
      · obtain ⟨tail, h1, h2⟩ := ih lines
        refine ⟨tail, ?_, ?_⟩
        · simp only [add_go, if_pos hc]
          exact h1
        · exact fun t ht =>
            (h2 t ht).elim fun e he =>
              ⟨e, List.mem_cons_of_mem _ he.1, he.2⟩
      · obtain ⟨tail, h1, h2⟩ := ih (lines ++ ["*" ++ esl])
        refine ⟨("*" ++ esl) :: tail, ?_, ?_⟩
        · simp only [add_go, if_neg hc, h1]
          simp
        · intro t ht
          rcases List.mem_cons.mp ht with rfl | ht
          · exact ⟨esl, List.mem_cons_self _ _, rfl⟩
          · exact (h2 t ht).elim fun e he =>
              ⟨e, List.mem_cons_of_mem _ he.1, he.2⟩

theorem add_go_covered (names : List String) :
    ∀ lines : List String, ∀ esl ∈ names,
      ("*" ++ esl) ∈ (add_go lines names).1 ∨
        esl ∈ (add_go lines names).1 := by
  induction names with
  | nil => simp
  | cons e rest ih =>
      intro lines esl hmem
      by_cases hc : ("*" ++ e) ∈ lines ∨ e ∈ lines
      · simp only [add_go, if_pos hc]
        rcases List.mem_cons.mp hmem with rfl | hmem
        · obtain ⟨tail, h1, _⟩ := add_go_tail rest lines
          rw [h1]
          rcases hc with hc | hc
          · exact Or.inl (List.mem_append.mpr (Or.inl hc))
          · exact Or.inr (List.mem_append.mpr (Or.inl hc))
        · exact ih lines esl hmem
      · simp only [add_go, if_neg hc]
        rcases List.mem_cons.mp hmem with rfl | hmem
        · obtain ⟨tail, h1, _⟩ := add_go_tail rest (lines ++ ["*" ++ esl])
          rw [h1]
          exact Or.inl (List.mem_append.mpr (Or.inl
            (List.mem_append.mpr (Or.inr (List.mem_singleton.mpr rfl)))))
        · exact ih (lines ++ ["*" ++ e]) esl hmem

theorem add_go_flag_false (names : List String) :
    ∀ lines : List String, (add_go lines names).2 = false →
      (add_go lines names).1 = lines := by
  induction names with
  | nil => intro lines _; rfl
  | cons esl rest ih =>
      intro lines h
      by_cases hc : ("*" ++ esl) ∈ lines ∨ esl ∈ lines
      · simp only [add_go, if_pos hc] at h ⊢
        exact ih lines h
      · simp only [add_go, if_neg hc] at h
        exact absurd h (by decide)

theorem add_go_flag_true (names : List String) :
    ∀ lines : List String, (add_go lines names).2 = true →
      lines.length < (add_go lines names).1.length := by
  induction names with
  | nil => intro lines h; exact absurd h (by simp [add_go])
  | cons esl rest ih =>
      intro lines h
      by_cases hc : ("*" ++ esl) ∈ lines ∨ esl ∈ lines
      · simp only [add_go, if_pos hc] at h ⊢
        exact ih lines h
      · simp only [add_go, if_neg hc]
        obtain ⟨tail, h1, _⟩ := add_go_tail rest (lines ++ ["*" ++ esl])
        rw [h1]
        simp

theorem remove_go_keep (names : List String) :
    ∀ lines : List String, (∀ l ∈ lines, lstripStar l ∉ names) →
      remove_go names lines = (lines, false) := by
  intro lines
  induction lines with
  | nil => intro _; rfl
  | cons line rest ih =>
      intro h
      have hl := h line (List.mem_cons_self _ _)
      simp only [remove_go, if_neg hl]
      rw [ih (fun l hlm => h l (List.mem_cons_of_mem _ hlm))]

theorem remove_go_concat (names A B : List String) :
    (remove_go names (A ++ B)).1 =
      (remove_go names A).1 ++ (remove_go names B).1 := by
  induction A with
  | nil => simp [remove_go]
  | cons line rest ih =>
      by_cases hl : lstripStar line ∈ names
      · simp only [List.cons_append, remove_go, if_pos hl]
        exact ih
      · simp only [List.cons_append, remove_go, if_neg hl]
        simp [ih]

theorem remove_go_dropAll (names : List String) :
    ∀ tail : List String, (∀ t ∈ tail, lstripStar t ∈ names) →
      (remove_go names tail).1 = [] := by
  intro tail
  induction tail with
  | nil => intro _; rfl
  | cons t rest ih =>
      intro h
      simp only [remove_go, if_pos (h t (List.mem_cons_self _ _))]
      exact ih (fun x hx => h x (List.mem_cons_of_mem _ hx))

theorem remove_go_le (names : List String) :
    ∀ lines : List String,
      (remove_go names lines).1.length ≤ lines.length := by
  intro lines
  induction lines with
  | nil => simp [remove_go]
  | cons line rest ih =>
      by_cases hl : lstripStar line ∈ names
      · simp only [remove_go, if_pos hl]
        simp
        omega
      · simp only [remove_go, if_neg hl]
        simpa using ih

theorem remove_go_flag_false (names : List String) :
    ∀ lines : List String, (remove_go names lines).2 = false →
      (remove_go names lines).1 = lines := by
  intro lines
  induction lines with
  | nil => intro _; rfl
  | cons line rest ih =>
      intro h
      by_cases hl : lstripStar line ∈ names
      · simp only [remove_go, if_pos hl] at h
        exact absurd h (by decide)
      · simp only [remove_go, if_neg hl] at h ⊢
        rw [ih h]

theorem remove_go_flag_true (names : List String) :
    ∀ lines : List String, (remove_go names lines).2 = true →
      (remove_go names lines).1.length < lines.length := by
  intro lines
  induction lines with
  | nil => intro h; exact absurd h (by simp [remove_go])
  | cons line rest ih =>
      intro h
      by_cases hl : lstripStar line ∈ names
      · simp only [remove_go, if_pos hl]
        have := remove_go_le names rest
        simp
        omega
      · simp only [remove_go, if_neg hl] at h ⊢
        have := ih h
        simp
        omega

/-- C8 counterexample: on a registry already containing the bare line
`Foo.esl`, adding `Foo.esl` changes nothing (it is already present), but the
subsequent removal deletes the pre-existing line, so add-then-remove yields
the empty registry instead of restoring the original content — the round-trip
fails for this registry content. -/
theorem c8_counterexample :
    add_to_plugins_txt ["Foo.esl"] ["Foo.esl"] = (["Foo.esl"], false) ∧
    (remove_from_plugins_txt
        (add_to_plugins_txt ["Foo.esl"] ["Foo.esl"]).1 ["Foo.esl"]).1 =
      ([] : List String) := by
  refine ⟨rfl, by decide⟩

/-- C8 (amended): registry add is idempotent — a name present in enabled or
bare form is never added again, and a repeated add is a no-op; add followed by
remove of the same names restores the exact original line list **provided**
none of the names already occurs in the registry (after stripping enable
markers) and no name itself starts with the enable marker; and both operations
report a change exactly when the line list changed (the source writes the file
back only on that flag). -/
theorem c8_registry_algebra (lines names : List String) :
    (∀ esl : String, (("*" ++ esl) ∈ lines ∨ esl ∈ lines) →
      add_to_plugins_txt lines [esl] = (lines, false)) ∧
    add_to_plugins_txt (add_to_plugins_txt lines names).1 names =
      ((add_to_plugins_txt lines names).1, false) ∧
    ((∀ l ∈ lines, lstripStar l ∉ names) →
      (∀ esl ∈ names, lstripStar esl = esl) →
      (remove_from_plugins_txt (add_to_plugins_txt lines names).1 names).1 =
        lines) ∧
    ((add_to_plugins_txt lines names).2 = false ↔
      (add_to_plugins_txt lines names).1 = lines) ∧
    ((remove_from_plugins_txt lines names).2 = false ↔
      (remove_from_plugins_txt lines names).1 = lines) := by
  refine ⟨?_, ?_, ?_, ?_, ?_⟩
  · intro esl hc
    simp only [add_to_plugins_txt, add_go, if_pos hc]
  · exact add_go_skip names _ (add_go_covered names lines)
  · intro hL hN
    obtain ⟨tail, h1, h2⟩ := add_go_tail names lines
    simp only [remove_from_plugins_txt, add_to_plugins_txt] at h1 ⊢
    rw [h1, remove_go_concat]
    have hkeep := remove_go_keep names lines hL
    have hdrop : (remove_go names tail).1 = [] := by
      refine remove_go_dropAll names tail ?_
      intro t ht
      obtain ⟨esl, hesl, rfl⟩ := h2 t ht
      rw [lstripStar_star, hN esl hesl]
      exact hesl
    rw [hdrop, List.append_nil]
    rw [hkeep]
  · constructor
    · exact add_go_flag_false names lines
    · intro he
      rcases hf : (add_go lines names).2 with _ | _
      · exact hf
      · exfalso
        have hlen := add_go_flag_true names lines hf
        rw [add_to_plugins_txt] at he
        rw [he] at hlen
        omega
  · constructor
    · exact remove_go_flag_false names lines
    · intro he
      rcases hf : (remove_go names lines).2 with _ | _
      · exact hf
      · exfalso
        have hlen := remove_go_flag_true names lines hf
        rw [remove_from_plugins_txt] at he
        rw [he] at hlen
        omega

/-- C8 witness: adding then removing a fresh name restores the registry, via
`c8_registry_algebra`. -/
theorem c8_registry_algebra_witness :
    (remove_from_plugins_txt
        (add_to_plugins_txt ["A.esl"] ["B.esl"]).1 ["B.esl"]).1 = ["A.esl"] :=
  (c8_registry_algebra ["A.esl"] ["B.esl"]).2.2.1 (by decide) (by decide)

/-! ## BackupManager restore (merger.py, restore_backup, lines 1163-1273)

A snapshot is a timestamped directory (here its modification time plus its
(file name, content) listing, in directory order); the live Data directory is
a finite map from file names to contents.  `restore_backup` picks
`sorted(backups, key=mtime, reverse=True)[0]` — the earliest directory of
maximal mtime, since Python sorting is stable — deletes the merged
`CCPacked*.*` / `CCMerged*.*` outputs, copies every snapshot file except the
`moved_strings.txt` manifest back with `shutil.copy2` (overwrite semantics),
and finally attempts to remove every backup but the one just used.  Each of
those `shutil.rmtree` calls is wrapped in `try`/`except Exception` that only
emits a warning (merger.py lines 1266-1271), so a snapshot the OS refuses to
delete survives a restore that still returns success; a `RestoreEnv` oracle
says which removal attempts the OS allows, and the theorems quantify over it.
The plugins.txt and `Data/Strings` side effects of restore are covered by the
registry model above and are orthogonal to the Data-directory/backup state
modelled here. -/

structure Snapshot where
  mtime : Nat
  files : List (String × String)
deriving DecidableEq

structure RestoreState where
  backups : List Snapshot
  dataFiles : String → Option String

/-- The manifest written during a merge and skipped by restore. -/
def manifestName : String := "moved_strings.txt"

/-- Membership in `Data.glob("CCPacked*.*")` or `Data.glob("CCMerged*.*")`:
the fixed 8-character output prefix followed by anything containing a dot. -/
def isMergedFile (name : String) : Bool :=
  ("CCPacked".data.isPrefixOf name.data ||
    "CCMerged".data.isPrefixOf name.data) &&
  (name.data.drop 8).any (fun c => c = '.')

/-- Overwriting copy of one file into the Data directory. -/
def fsUpdate (f : String → Option String) (n c : String) :
    String → Option String :=
  fun m => if m = n then some c else f m

/-- The restore copy loop: every snapshot file except the manifest is copied
back, overwriting. -/
def copyBack (snapFiles : List (String × String))
    (f : String → Option String) : String → Option String :=
  snapFiles.foldl
    (fun d p => if p.1 = manifestName then d else fsUpdate d p.1 p.2) f

/-- Deletion of the merged outputs (`CCPacked*.*`, `CCMerged*.*`). -/
def removeMerged (f : String → Option String) : String → Option String :=
  fun m => if isMergedFile m then none else f m

/-- The selection `sorted(backups, key=mtime, reverse=True)[0]`: the earliest element of
maximal mtime (Python's sort is stable and `reverse=True` keeps ties in
original order). -/
def pickLatest (b : Snapshot) (rest : List Snapshot) : Snapshot :=
  rest.foldl (fun best c => if best.mtime < c.mtime then c else best) b

/-- Oracle for the OS behaviour of the old-snapshot cleanup: whether the
`i`-th `shutil.rmtree` attempt succeeds.  The source catches a failure, emits
a warning, and continues (merger.py lines 1266-1271). -/
structure RestoreEnv where
  rmtreeOk : Nat → Bool

/-- Removal of the retained directory from the backup list: `backups[1:]` is
everything except the first element of maximal mtime, which is the one
`sorted(..., reverse=True)[0]` selects. -/
def dropFirstMax (m : Nat) : List Snapshot → List Snapshot
  | [] => []
  | x :: xs => if x.mtime = m then xs else x :: dropFirstMax m xs

/-- The `for old_backup in backups[1:]` cleanup loop: each snapshot is removed
when its `rmtree` succeeds and survives (with only a warning) when it fails. -/
def pruneBackups (rmtreeOk : Nat → Bool) : Nat → List Snapshot → List Snapshot
  | _, [] => []
  | i, x :: xs =>
      if rmtreeOk i then pruneBackups rmtreeOk (i + 1) xs
      else x :: pruneBackups rmtreeOk (i + 1) xs

/-- Model of `restore_backup` on the Data-directory/backup state: `none`
models the `"No backups found."` failure return; the surviving backups are
the retained snapshot plus every other snapshot whose removal the OS
refused. -/
def restore_backup (env : RestoreEnv) (s : RestoreState) :
    Option RestoreState :=
  match s.backups with
  | [] => none
  | b :: rest =>
      let latest := pickLatest b rest
      some ⟨latest :: pruneBackups env.rmtreeOk 0
          (dropFirstMax latest.mtime (b :: rest)),
        copyBack latest.files (removeMerged s.dataFiles)⟩

theorem pickLatest_mem (rest : List Snapshot) :
    ∀ b : Snapshot, pickLatest b rest ∈ b :: rest := by
  induction rest with
  | nil => intro b; simp [pickLatest]
  | cons c cs ih =>
      intro b
      have hstep : pickLatest b (c :: cs) =
          pickLatest (if b.mtime < c.mtime then c else b) cs := rfl
      rw [hstep]
      by_cases hlt : b.mtime < c.mtime
      · rw [if_pos hlt]
        rcases List.mem_cons.mp (ih c) with h | h
        · rw [h]; simp
        · simp [h]
      · rw [if_neg hlt]
        rcases List.mem_cons.mp (ih b) with h | h
        · rw [h]; simp
        · simp [h]

theorem pickLatest_le (rest : List Snapshot) :
    ∀ b : Snapshot, ∀ x ∈ b :: rest, x.mtime ≤ (pickLatest b rest).mtime := by
  induction rest with
  | nil =>
      intro b x hx
      have : x = b := by simpa using hx
      rw [this]
      exact Nat.le_refl _
  | cons c cs ih =>
      intro b x hx
      have hstep : pickLatest b (c :: cs) =
          pickLatest (if b.mtime < c.mtime then c else b) cs := rfl
      rw [hstep]
      have hseed : ∀ y : Snapshot, y.mtime ≤ (pickLatest y cs).mtime :=
        fun y => ih y y (List.mem_cons_self _ _)
      rcases List.mem_cons.mp hx with rfl | hx
      · by_cases hlt : x.mtime < c.mtime
        · rw [if_pos hlt]
          exact Nat.le_trans (Nat.le_of_lt hlt) (hseed c)
        · rw [if_neg hlt]
          exact hseed x
      · rcases List.mem_cons.mp hx with rfl | hx
        · by_cases hlt : b.mtime < x.mtime
          · rw [if_pos hlt]
            exact hseed x
          · rw [if_neg hlt]
            exact Nat.le_trans (Nat.le_of_not_lt hlt) (hseed b)
        · by_cases hlt : b.mtime < c.mtime
          · rw [if_pos hlt]
            exact ih c x (List.mem_cons_of_mem _ hx)
          · rw [if_neg hlt]
            exact ih b x (List.mem_cons_of_mem _ hx)

theorem pickLatest_head_of_max (rest : List Snapshot) :
    ∀ b : Snapshot, (∀ x ∈ rest, x.mtime ≤ b.mtime) →
      pickLatest b rest = b := by
  induction rest with
  | nil => intro b _; rfl
  | cons c cs ih =>
      intro b h
      have hc : c.mtime ≤ b.mtime := h c (List.mem_cons_self _ _)
      have hstep : pickLatest b (c :: cs) =
          pickLatest (if b.mtime < c.mtime then c else b) cs := rfl
      rw [hstep, if_neg (Nat.not_lt.mpr hc)]
      exact ih b (fun x hx => h x (List.mem_cons_of_mem _ hx))

theorem dropFirstMax_subset (m : Nat) :
    ∀ l : List Snapshot, ∀ x ∈ dropFirstMax m l, x ∈ l := by
  intro l
  induction l with
  | nil => simp [dropFirstMax]
  | cons y ys ih =>
      intro x hx
      by_cases hy : y.mtime = m
      · simp only [dropFirstMax, if_pos hy] at hx
        exact List.mem_cons_of_mem _ hx
      · simp only [dropFirstMax, if_neg hy] at hx
        rcases List.mem_cons.mp hx with rfl | hx
        · exact List.mem_cons_self _ _
        · exact List.mem_cons_of_mem _ (ih x hx)

theorem pruneBackups_subset (ok : Nat → Bool) :
    ∀ (l : List Snapshot) (i : Nat), ∀ x ∈ pruneBackups ok i l, x ∈ l := by
  intro l
  induction l with
  | nil => simp [pruneBackups]
  | cons y ys ih =>
      intro i x hx
      by_cases hok : ok i
      · simp only [pruneBackups, if_pos hok] at hx
        exact List.mem_cons_of_mem _ (ih (i + 1) x hx)
      · simp only [pruneBackups, if_neg hok] at hx
        rcases List.mem_cons.mp hx with rfl | hx
        · exact List.mem_cons_self _ _
        · exact List.mem_cons_of_mem _ (ih (i + 1) x hx)

theorem pruneBackups_all_ok (ok : Nat → Bool) (hok : ∀ i, ok i = true) :
    ∀ (l : List Snapshot) (i : Nat), pruneBackups ok i l = [] := by
  intro l
  induction l with
  | nil => intro i; rfl
  | cons y ys ih =>
      intro i
      simp only [pruneBackups, hok i, if_true]
      exact ih (i + 1)

theorem copyBack_cons (p : String × String) (rest : List (String × String))
    (f : String → Option String) :
    copyBack (p :: rest) f =
      if p.1 = manifestName then copyBack rest f
      else copyBack rest (fsUpdate f p.1 p.2) := by
  by_cases h : p.1 = manifestName <;> simp [copyBack, h]

theorem copyBack_not_copied (snapFiles : List (String × String)) :
    ∀ (f : String → Option String) (n : String),
      (n = manifestName ∨ n ∉ snapFiles.map Prod.fst) →
      copyBack snapFiles f n = f n := by
  induction snapFiles with
  | nil => intro f n _; rfl
  | cons p rest ih =>
      intro f n hn
      obtain ⟨m, c⟩ := p
      have hrest : n = manifestName ∨ n ∉ rest.map Prod.fst := by
        rcases hn with h | h
        · exact Or.inl h
        · right
          intro hmem
          exact h (List.mem_cons_of_mem _ hmem)
      rw [copyBack_cons]
      by_cases hman : m = manifestName
      · rw [if_pos hman]
        exact ih f n hrest
      · rw [if_neg hman]
        rw [ih (fsUpdate f m c) n hrest]
        have hnm : n ≠ m := by
          rcases hn with h | h
          · intro he
            exact hman (he ▸ h)
          · intro he
            apply h
            simp [he]
        simp [fsUpdate, hnm]

theorem copyBack_copied (snapFiles : List (String × String)) :
    ∀ (f : String → Option String) (n c : String),
      (snapFiles.map Prod.fst).Nodup → (n, c) ∈ snapFiles →
      n ≠ manifestName → copyBack snapFiles f n = some c := by
  induction snapFiles with
  | nil => intro f n c _ hmem _; simp at hmem
  | cons p rest ih =>
      intro f n c hnd hmem hman
      obtain ⟨m, x⟩ := p
      simp only [List.map_cons, List.nodup_cons] at hnd
      rw [copyBack_cons]
      rcases List.mem_cons.mp hmem with heq | hmem2
      · injection heq with h1 h2
        subst h1
        subst h2
        rw [if_neg hman]
        rw [copyBack_not_copied rest (fsUpdate f n c) n (Or.inr hnd.1)]
        simp [fsUpdate]
      · by_cases hm : m = manifestName
        · rw [if_pos hm]
          exact ih f n c hnd.2 hmem2 hman
        · rw [if_neg hm]
          exact ih (fsUpdate f m x) n c hnd.2 hmem2 hman

/-- C6 counterexample: on a state with two snapshot directories, when the OS
refuses the `rmtree` of the old snapshot (the source catches the exception
and only warns), restore still returns success while two snapshot directories
remain — refuting the claim that at most one backup remains after a
successful restore. -/
theorem c6_counterexample :
    Option.map (fun s2 => s2.backups.length)
      (restore_backup ⟨fun _ => false⟩
        ⟨[⟨5, []⟩, ⟨3, []⟩], fun _ => none⟩) = some 2 := rfl

/-- C6 (amended): after a successful restore, the snapshot just used (a
maximal-mtime snapshot of the originals) is retained and every surviving
backup is one of the original snapshots; exactly one snapshot — the one just
used — remains whenever every old-snapshot removal attempt succeeds (a failed
removal is only warned about); every file of the used snapshot except the
moved-strings manifest is copied back to the Data map with overwrite
semantics; and re-running restore is safe: a second restore (under any OS
behaviour) succeeds, still retains the used snapshot, and leaves every Data
entry unchanged. -/
theorem c6_restore_invariants (env env2 : RestoreEnv) (s s2 : RestoreState)
    (h : restore_backup env s = some s2)
    (hnd : ∀ b ∈ s.backups, (b.files.map Prod.fst).Nodup) :
    ∃ latest, latest ∈ s.backups ∧
      (∀ b ∈ s.backups, b.mtime ≤ latest.mtime) ∧
      latest ∈ s2.backups ∧
      (∀ b ∈ s2.backups, b ∈ s.backups) ∧
      ((∀ i, env.rmtreeOk i = true) → s2.backups = [latest]) ∧
      (∀ n c, (n, c) ∈ latest.files → n ≠ manifestName →
        s2.dataFiles n = some c) ∧
      (∃ s3, restore_backup env2 s2 = some s3 ∧ latest ∈ s3.backups ∧
        ∀ n, s3.dataFiles n = s2.dataFiles n) := by
  obtain ⟨backs, data⟩ := s
  rcases backs with _ | ⟨b, rest⟩
  · exact absurd h (by simp [restore_backup])
  · have hs2 : s2 = ⟨pickLatest b rest :: pruneBackups env.rmtreeOk 0
        (dropFirstMax (pickLatest b rest).mtime (b :: rest)),
        copyBack (pickLatest b rest).files (removeMerged data)⟩ :=
      (Option.some.inj h).symm
    subst hs2
    have hmem : pickLatest b rest ∈ b :: rest := pickLatest_mem rest b
    have hndl : ((pickLatest b rest).files.map Prod.fst).Nodup :=
      hnd (pickLatest b rest) hmem
    have hboundp : ∀ x ∈ pruneBackups env.rmtreeOk 0
        (dropFirstMax (pickLatest b rest).mtime (b :: rest)),
        x.mtime ≤ (pickLatest b rest).mtime := by
      intro x hx
      exact pickLatest_le rest b x
        (dropFirstMax_subset _ _ x (pruneBackups_subset _ _ 0 x hx))
    refine ⟨pickLatest b rest, hmem, pickLatest_le rest b,
      List.mem_cons_self _ _, ?_, ?_, ?_, ?_⟩
    · intro x hx
      rcases List.mem_cons.mp hx with rfl | hx
      · exact hmem
      · exact dropFirstMax_subset _ _ x (pruneBackups_subset _ _ 0 x hx)
    · intro hall
      show pickLatest b rest :: pruneBackups env.rmtreeOk 0
          (dropFirstMax (pickLatest b rest).mtime (b :: rest)) =
        [pickLatest b rest]
      rw [pruneBackups_all_ok env.rmtreeOk hall _ 0]
    · intro n c hnc hman
      exact copyBack_copied (pickLatest b rest).files (removeMerged data)
        n c hndl hnc hman
    · have hpick : pickLatest (pickLatest b rest)
          (pruneBackups env.rmtreeOk 0
            (dropFirstMax (pickLatest b rest).mtime (b :: rest))) =
          pickLatest b rest :=
        pickLatest_head_of_max _ _ hboundp
      refine ⟨⟨pickLatest b rest :: pruneBackups env2.rmtreeOk 0
          (dropFirstMax (pickLatest b rest).mtime
            (pickLatest b rest :: pruneBackups env.rmtreeOk 0
              (dropFirstMax (pickLatest b rest).mtime (b :: rest)))),
        copyBack (pickLatest b rest).files (removeMerged
          (copyBack (pickLatest b rest).files (removeMerged data)))⟩,
        ?_, List.mem_cons_self _ _, ?_⟩
      · simp only [restore_backup, hpick]
      · intro n
        show copyBack (pickLatest b rest).files (removeMerged
            (copyBack (pickLatest b rest).files (removeMerged data))) n =
          copyBack (pickLatest b rest).files (removeMerged data) n
        by_cases hcase : n = manifestName ∨
            n ∉ (pickLatest b rest).files.map Prod.fst
        · rw [copyBack_not_copied (pickLatest b rest).files _ n hcase]
          have hD : copyBack (pickLatest b rest).files (removeMerged data) n =
              removeMerged data n :=
            copyBack_not_copied (pickLatest b rest).files _ n hcase
          by_cases hmg : isMergedFile n
          · rw [hD]
            simp [removeMerged, hmg]
          · simp only [removeMerged, if_neg hmg]
        · push_neg at hcase
          obtain ⟨hman, hmemn⟩ := hcase
          obtain ⟨⟨n2, c⟩, hmc, hfst⟩ := List.mem_map.mp hmemn
          simp only at hfst
          subst hfst
          rw [copyBack_copied (pickLatest b rest).files _ n2 c hndl hmc hman,
            copyBack_copied (pickLatest b rest).files _ n2 c hndl hmc hman]

/-- C6 witness: a concrete restore (all removal attempts succeeding) via
`c6_restore_invariants` — the restored Data map holds the snapshot's file. -/
theorem c6_restore_invariants_witness :
    copyBack [("a.ba2", "X")] (removeMerged (fun _ => none)) "a.ba2" =
      some "X" := by
  obtain ⟨latest, _, _, _, _, hone, hcopy, _⟩ :=
    c6_restore_invariants ⟨fun _ => true⟩ ⟨fun _ => true⟩
      ⟨[⟨5, [("a.ba2", "X")]⟩], fun _ => none⟩
      ⟨[⟨5, [("a.ba2", "X")]⟩],
        copyBack [("a.ba2", "X")] (removeMerged (fun _ => none))⟩
      rfl (by decide)
  have hl : latest = ⟨5, [("a.ba2", "X")]⟩ := by
    simpa using (hone (fun i => rfl)).symm
  subst hl
  exact hcopy "a.ba2" "X" (by decide) (by decide)

end CCPacker
